import Mathlib

/-!
Verification of the GA maze-pathfinding engine.

Shallow embedding of the repository (maze.py, ga_solver.py).  Python machine
integers are unbounded, so coordinates and fitness values are modelled as
Int (rationals only where the configuration parameter is a float).  The
random draws consumed by the genetic operators are passed in explicitly as
parameters (seeds, coin flips, direction streams), so every source function
becomes a pure Lean function of its inputs and its random draws.
-/

/-- Cell types in the maze (maze.py, class Cell). -/
inductive Cell where
  | EMPTY
  | WALL
  | START
  | END
deriving DecidableEq, Repr

/-- Numeric value of each cell marker (maze.py, Cell values 0,1,2,3). -/
def Cell.value : Cell → Nat
  | .EMPTY => 0
  | .WALL => 1
  | .START => 2
  | .END => 3

/-- Position in the maze grid (maze.py, class Position). -/
structure Position where
  row : Int
  col : Int
deriving DecidableEq, Repr

/-- Movement directions (maze.py, class Direction). -/
inductive Direction where
  | UP
  | DOWN
  | LEFT
  | RIGHT
deriving DecidableEq, Repr

/-- The maze: a grid (0 = empty, 1 = wall) with start and end positions
(maze.py, class Maze).  The source's `end` field is called `endPos` here
because `end` is a Lean keyword. -/
structure Maze where
  grid : List (List Nat)
  start : Position
  endPos : Position
deriving Repr

/-- Number of rows: `self.rows = len(grid)`. -/
def Maze.rows (m : Maze) : Nat := m.grid.length

/-- Number of columns: `self.cols = len(grid[0]) if grid else 0`. -/
def Maze.cols (m : Maze) : Nat := (m.grid.headD []).length

/-- Check if position is within maze bounds (maze.py, is_valid_position):
`0 <= pos.row < self.rows and 0 <= pos.col < self.cols`. -/
def Maze.is_valid_position (m : Maze) (pos : Position) : Bool :=
  0 ≤ pos.row && pos.row < (m.rows : Int) && (0 ≤ pos.col && pos.col < (m.cols : Int))

/-- The grid entry read by `self.grid[pos.row][pos.col]`; total with default 0,
only consulted by `is_wall` after the bounds check succeeds. -/
def Maze.cellAt (m : Maze) (pos : Position) : Nat :=
  (m.grid.getD pos.row.toNat []).getD pos.col.toNat 0

/-- Check if position is a wall (maze.py, is_wall): out of bounds is treated
as wall, otherwise `self.grid[pos.row][pos.col] == Cell.WALL.value`. -/
def Maze.is_wall (m : Maze) (pos : Position) : Bool :=
  if !(m.is_valid_position pos) then
    true
  else
    m.cellAt pos == Cell.WALL.value

/-- Calculate new position after moving in given direction (maze.py, move). -/
def Maze.move (_m : Maze) (pos : Position) (direction : Direction) : Position :=
  match direction with
  | .UP => ⟨pos.row - 1, pos.col⟩
  | .DOWN => ⟨pos.row + 1, pos.col⟩
  | .LEFT => ⟨pos.row, pos.col - 1⟩
  | .RIGHT => ⟨pos.row, pos.col + 1⟩

/-- Manhattan distance from position to goal (maze.py, manhattan_distance). -/
def Maze.manhattan_distance (m : Maze) (pos : Position) : Int :=
  |pos.row - m.endPos.row| + |pos.col - m.endPos.col|

/-- Opposite direction, as the `opposites` table in ga_solver.py,
_simplify_individual. -/
def opposite : Direction → Direction
  | .UP => .DOWN
  | .DOWN => .UP
  | .LEFT => .RIGHT
  | .RIGHT => .LEFT

/-- C8: for every maze, every out-of-bounds position is reported as a wall,
and every in-bounds position is a wall exactly when its grid cell carries the
WALL marker. -/
theorem is_wall_spec (m : Maze) (p : Position) :
    (m.is_valid_position p = false → m.is_wall p = true) ∧
      (m.is_valid_position p = true →
        (m.is_wall p = true ↔ m.cellAt p = Cell.WALL.value)) := by
  constructor
  · intro h
    simp [Maze.is_wall, h]
  · intro h
    simp [Maze.is_wall, h]

/-- Witness for is_wall_spec: on the concrete 2×2 maze with a wall at (1,0),
the position (-1,0) is out of bounds hence a wall, and the in-bounds
position (1,0) is a wall exactly when its cell is the WALL marker. -/
theorem is_wall_spec_witness :
    ((⟨[[0, 0], [1, 0]], ⟨0, 0⟩, ⟨1, 1⟩⟩ : Maze).is_wall ⟨-1, 0⟩ = true) ∧
      (((⟨[[0, 0], [1, 0]], ⟨0, 0⟩, ⟨1, 1⟩⟩ : Maze).is_wall ⟨1, 0⟩ = true ↔
        (⟨[[0, 0], [1, 0]], ⟨0, 0⟩, ⟨1, 1⟩⟩ : Maze).cellAt ⟨1, 0⟩ = Cell.WALL.value)) :=
  ⟨(is_wall_spec ⟨[[0, 0], [1, 0]], ⟨0, 0⟩, ⟨1, 1⟩⟩ ⟨-1, 0⟩).1 (by decide),
   (is_wall_spec ⟨[[0, 0], [1, 0]], ⟨0, 0⟩, ⟨1, 1⟩⟩ ⟨1, 0⟩).2 (by decide)⟩

/-- C10: moving in a direction and then in its opposite returns to the
original position: the unit offsets cancel exactly. -/
theorem move_opposite_cancel (m : Maze) (p : Position) (d : Direction) :
    m.move (m.move p d) (opposite d) = p := by
  cases d <;> simp [Maze.move, opposite]

/-- One iteration of the canonicalizer loop (ga_solver.py,
_simplify_individual): if the last retained move is the opposite of the
current one they cancel (pop), otherwise the current move is appended. -/
def simplifyStep (acc : List Direction) (d : Direction) : List Direction :=
  if acc ≠ [] ∧ acc.getLast? = some (opposite d) then acc.dropLast else acc ++ [d]

/-- Canonicalizer (ga_solver.py, _simplify_individual): a single
left-to-right pass applying simplifyStep to each direction. -/
def simplify_individual (individual : List Direction) : List Direction :=
  individual.foldl simplifyStep []

/-- The same step on the reversed accumulator (head of the list is the top
of the stack); used only to reason about simplify_individual. -/
def rstep (acc : List Direction) (d : Direction) : List Direction :=
  match acc with
  | [] => [d]
  | t :: rest => if t = opposite d then rest else d :: t :: rest

theorem opposite_opposite (d : Direction) : opposite (opposite d) = d := by
  cases d <;> rfl

theorem opposite_ne_comm (a b : Direction) (h : b ≠ opposite a) : a ≠ opposite b := by
  intro h2
  exact h (by rw [h2, opposite_opposite])

theorem simplifyStep_eq_rstep (acc : List Direction) (d : Direction) :
    simplifyStep acc d = (rstep acc.reverse d).reverse := by
  rcases h : acc.reverse with _ | ⟨t, rest⟩
  · have hacc : acc = [] := by
      simpa using congrArg List.reverse h
    subst hacc
    simp [simplifyStep, rstep]
  · have hacc : acc = rest.reverse ++ [t] := by
      have := congrArg List.reverse h
      simpa using this
    subst hacc
    by_cases ht : t = opposite d
    · simp [simplifyStep, rstep, ht]
    · have hne : ¬((rest.reverse ++ [t]).getLast? = some (opposite d)) := by
        simp [List.getLast?_concat]
        intro h2
        exact ht h2
      simp [simplifyStep, rstep, ht, hne]

theorem foldl_simplifyStep_eq_rstep (l : List Direction) :
    ∀ acc : List Direction, l.foldl simplifyStep acc = (l.foldl rstep acc.reverse).reverse := by
  induction l with
  | nil => intro acc; simp
  | cons d tl ih =>
    intro acc
    have h1 : (simplifyStep acc d).reverse = rstep acc.reverse d := by
      rw [simplifyStep_eq_rstep]
      simp
    simp only [List.foldl_cons]
    rw [ih (simplifyStep acc d), h1]

/-- The output of the canonicalizer, read in list order, never puts a
direction right after its opposite. -/
def Reduced (l : List Direction) : Prop :=
  List.Chain' (fun a b => b ≠ opposite a) l

theorem rstep_chain (acc : List Direction) (d : Direction)
    (h : List.Chain' (fun a b => b ≠ opposite a) acc) :
    List.Chain' (fun a b => b ≠ opposite a) (rstep acc d) := by
  rcases acc with _ | ⟨t, rest⟩
  · simp [rstep, List.chain'_singleton]
  · by_cases ht : t = opposite d
    · simpa [rstep, ht] using h.tail
    · rw [rstep]
      simp only [if_neg ht]
      exact List.chain'_cons.mpr ⟨ht, h⟩

theorem foldl_rstep_chain (l : List Direction) :
    ∀ acc : List Direction, List.Chain' (fun a b => b ≠ opposite a) acc →
      List.Chain' (fun a b => b ≠ opposite a) (l.foldl rstep acc) := by
  induction l with
  | nil => intro acc h; simpa using h
  | cons d tl ih =>
    intro acc h
    simpa using ih (rstep acc d) (rstep_chain acc d h)

theorem simplify_reduced (l : List Direction) : Reduced (simplify_individual l) := by
  rw [Reduced, simplify_individual, foldl_simplifyStep_eq_rstep]
  rw [List.chain'_reverse]
  have h := foldl_rstep_chain l [] List.chain'_nil
  exact h.imp fun a b hab => opposite_ne_comm a b hab

theorem foldl_rstep_of_reduced (l : List Direction) :
    ∀ s : List Direction, Reduced l →
      (∀ h t, l.head? = some h → s.head? = some t → t ≠ opposite h) →
      l.foldl rstep s = l.reverse ++ s := by
  induction l with
  | nil => intro s _ _; simp
  | cons h tl ih =>
    intro s hred hint
    have hstep : rstep s h = h :: s := by
      rcases s with _ | ⟨t, rest⟩
      · rfl
      · have hne : t ≠ opposite h := hint h t rfl rfl
        simp [rstep, hne]
    have hredtl : Reduced tl := hred.tail
    have hint2 : ∀ h2 t2, tl.head? = some h2 → (h :: s).head? = some t2 → t2 ≠ opposite h2 := by
      intro h2 t2 hh2 ht2
      have ht2h : t2 = h := (Option.some.inj ht2).symm
      rw [ht2h]
      rcases tl with _ | ⟨x, xs⟩
      · simp at hh2
      · have hx : x = h2 := by simpa using hh2
        subst hx
        have hR : x ≠ opposite h := (List.chain'_cons.mp hred).1
        exact opposite_ne_comm h x hR
    simp only [List.foldl_cons]
    rw [hstep, ih (h :: s) hredtl hint2]
    simp

theorem simplify_of_reduced (l : List Direction) (hred : Reduced l) :
    simplify_individual l = l := by
  rw [simplify_individual, foldl_simplifyStep_eq_rstep]
  rw [List.reverse_nil, foldl_rstep_of_reduced l [] hred (by intro h t _ ht; simp at ht)]
  simp

/-- C6: the canonicalizer is idempotent — simplify applied twice equals
simplify applied once — because its output contains no adjacent
opposite-direction pair. -/
theorem simplify_idempotent :
    (∀ s : List Direction, simplify_individual (simplify_individual s) = simplify_individual s) ∧
      (∀ s : List Direction, Reduced (simplify_individual s)) :=
  ⟨fun s => simplify_of_reduced _ (simplify_reduced s), simplify_reduced⟩

/-- State of the path-simulation loop in _evaluate_individual. -/
structure SimState where
  position : Position
  collisions : Nat
  visited_positions : List Position
  unique_positions : Finset Position

/-- One loop iteration of _evaluate_individual: a wall or out-of-bounds
candidate counts a collision and the position does not change; otherwise the
position advances and is recorded in the trace and the unique set. -/
def simStep (m : Maze) (s : SimState) (d : Direction) : SimState :=
  let new_position := m.move s.position d
  if m.is_wall new_position || !(m.is_valid_position new_position) then
    { s with collisions := s.collisions + 1 }
  else
    { position := new_position,
      collisions := s.collisions,
      visited_positions := s.visited_positions ++ [new_position],
      unique_positions := insert new_position s.unique_positions }

/-- The simulation loop of _evaluate_individual: after each processed
direction the loop breaks as soon as the current position equals the goal. -/
def simAux (m : Maze) : List Direction → SimState → SimState
  | [], s => s
  | d :: rest, s =>
    let s1 := simStep m s d
    if s1.position = m.endPos then s1 else simAux m rest s1

/-- Initial simulation state: at the start cell, no collisions, the trace and
the unique set hold the start cell. -/
def simInit (m : Maze) : SimState :=
  { position := m.start, collisions := 0,
    visited_positions := [m.start], unique_positions := {m.start} }

/-- Full path simulation of an individual (ga_solver.py,
_evaluate_individual, the for loop). -/
def simulate (m : Maze) (individual : List Direction) : SimState :=
  simAux m individual (simInit m)

/-- Fitness of an individual (ga_solver.py, _evaluate_individual): the
scoring code after the simulation loop, transcribed term for term. -/
def evaluate_individual (m : Maze) (max_path_length : Nat)
    (individual : List Direction) : Int × Int :=
  let s := simulate m individual
  let distance_to_goal := m.manhattan_distance s.position
  let unique_cells_visited : Int := s.unique_positions.card
  let revisit_penalty : Int := (s.visited_positions.length : Int) - unique_cells_visited
  if s.position = m.endPos then
    let path_length : Int := s.visited_positions.length
    ((s.collisions : Int) * 10 + revisit_penalty * 2, path_length)
  else
    let exploration_bonus := -unique_cells_visited
    ((s.collisions : Int) * 10 + distance_to_goal * 5 + revisit_penalty * 2 + exploration_bonus,
      (max_path_length : Int))

/-- The two-branch score exactly as the spec words it: on success
(collisions*10 + revisit_penalty*2, number_of_visited_steps); on failure
(collisions*10 + manhattan_distance(final_position)*5 + revisit_penalty*2
minus unique_cells_visited, max_path_length), where revisit_penalty =
visited_steps - unique_cells_visited.  Written from the spec sentences, to
be compared with evaluate_individual. -/
def spec_score (m : Maze) (max_path_length : Nat)
    (individual : List Direction) : Int × Int :=
  let s := simulate m individual
  let visited_steps : Int := s.visited_positions.length
  let unique_cells_visited : Int := s.unique_positions.card
  let revisit_penalty := visited_steps - unique_cells_visited
  if s.position = m.endPos then
    ((s.collisions : Int) * 10 + revisit_penalty * 2, visited_steps)
  else
    ((s.collisions : Int) * 10 + m.manhattan_distance s.position * 5 + revisit_penalty * 2 -
        unique_cells_visited,
      (max_path_length : Int))

/-- C1: the fitness evaluator returns exactly the two-branch score of the
spec, with the weighting constants 10, 5, 2, 1 exact. -/
theorem evaluate_matches_spec_score (m : Maze) (L : Nat) (individual : List Direction) :
    evaluate_individual m L individual = spec_score m L individual := by
  by_cases h : (simulate m individual).position = m.endPos
  · simp [evaluate_individual, spec_score, h]
  · simp [evaluate_individual, spec_score, h, sub_eq_add_neg]

/-- Concrete 1×2 maze, both cells empty, whose start equals its end. -/
def mazeStartEqEnd : Maze := ⟨[[0, 0]], ⟨0, 0⟩, ⟨0, 0⟩⟩

/-- C4 counterexample: on a maze whose start equals its end, the first move
of the individual [RIGHT] is still simulated — the trace grows to a second
cell and the final position differs from the goal — refuting the claim that
no move of any individual is simulated when start equals end (the goal test
runs only after a move has been processed). -/
theorem sim_start_eq_end_counterexample :
    (simulate mazeStartEqEnd [Direction.RIGHT]).visited_positions =
        [⟨0, 0⟩, ⟨0, 1⟩] ∧
      (simulate mazeStartEqEnd [Direction.RIGHT]).position ≠ mazeStartEqEnd.endPos := by
  constructor
  · rfl
  · decide

/-- C4 amended: the goal test runs after each processed move; whenever the
position resulting from a processed move equals the goal, the simulation
stops there and simulates none of the remaining moves (so a mid-path arrival
still cuts the simulation short, but a maze whose start equals its end has
its first move simulated). -/
theorem sim_stops_after_goal_step (m : Maze) (s : SimState) (d : Direction)
    (rest : List Direction) (h : (simStep m s d).position = m.endPos) :
    simAux m (d :: rest) s = simStep m s d := by
  simp [simAux, h]

/-- Concrete 1×2 maze, both cells empty, goal one step right of the start. -/
def mazeGoalRight : Maze := ⟨[[0, 0]], ⟨0, 0⟩, ⟨0, 1⟩⟩

/-- Witness for sim_stops_after_goal_step: on the 1×2 maze the first RIGHT
reaches the goal and the two remaining LEFT moves are not simulated. -/
theorem sim_stops_after_goal_step_witness :
    (simStep mazeGoalRight (simInit mazeGoalRight) Direction.RIGHT).position =
        mazeGoalRight.endPos ∧
      simAux mazeGoalRight [Direction.RIGHT, Direction.LEFT, Direction.LEFT]
          (simInit mazeGoalRight) =
        simStep mazeGoalRight (simInit mazeGoalRight) Direction.RIGHT :=
  ⟨by decide, sim_stops_after_goal_step mazeGoalRight (simInit mazeGoalRight)
    Direction.RIGHT [Direction.LEFT, Direction.LEFT] (by decide)⟩

/-- A simulation state whose whole trace lies on in-bounds non-wall cells and
whose current position is in the trace. -/
def GoodState (m : Maze) (s : SimState) : Prop :=
  (∀ p ∈ s.visited_positions, m.is_valid_position p = true ∧ m.is_wall p = false) ∧
    s.position ∈ s.visited_positions

theorem simStep_rejected (m : Maze) (s : SimState) (d : Direction)
    (h : m.is_wall (m.move s.position d) = true ∨
      m.is_valid_position (m.move s.position d) = false) :
    (simStep m s d).position = s.position := by
  rcases h with h | h <;> simp [simStep, h]

theorem simStep_good (m : Maze) (s : SimState) (d : Direction)
    (hgood : GoodState m s) : GoodState m (simStep m s d) := by
  rw [simStep]
  split
  · exact hgood
  · rename_i hcond
    have hc : m.is_wall (m.move s.position d) = false ∧
        m.is_valid_position (m.move s.position d) = true := by
      constructor
      · cases hw : m.is_wall (m.move s.position d)
        · rfl
        · exact absurd (by simp [hw]) hcond
      · cases hv : m.is_valid_position (m.move s.position d)
        · exact absurd (by simp [hv]) hcond
        · rfl
    constructor
    · intro p hp
      rcases List.mem_append.mp hp with hp | hp
      · exact hgood.1 p hp
      · have hpe : p = m.move s.position d := by simpa using hp
        rw [hpe]
        exact ⟨hc.2, hc.1⟩
    · exact List.mem_append.mpr (Or.inr (by simp))

theorem simAux_good (m : Maze) (l : List Direction) :
    ∀ s : SimState, GoodState m s → GoodState m (simAux m l s) := by
  induction l with
  | nil => intro s h; exact h
  | cons d rest ih =>
    intro s h
    rw [simAux]
    split
    · exact simStep_good m s d h
    · exact ih (simStep m s d) (simStep_good m s d h)

/-- C9: when the start cell is in bounds and not a wall, every position of
the evaluator trace — the final position included — is in bounds and not a
wall, and a rejected move leaves the current position unchanged. -/
theorem sim_positions_valid (m : Maze) (individual : List Direction)
    (hs1 : m.is_valid_position m.start = true) (hs2 : m.is_wall m.start = false) :
    (∀ p ∈ (simulate m individual).visited_positions,
        m.is_valid_position p = true ∧ m.is_wall p = false) ∧
      (simulate m individual).position ∈ (simulate m individual).visited_positions ∧
      (∀ (s : SimState) (d : Direction),
        (m.is_wall (m.move s.position d) = true ∨
          m.is_valid_position (m.move s.position d) = false) →
        (simStep m s d).position = s.position) := by
  have hinit : GoodState m (simInit m) := by
    constructor
    · intro p hp
      have hpe : p = m.start := by simpa [simInit] using hp
      rw [hpe]
      exact ⟨hs1, hs2⟩
    · simp [simInit]
  have hgood := simAux_good m individual (simInit m) hinit
  exact ⟨hgood.1, hgood.2, simStep_rejected m⟩

/-- Concrete 2×2 open maze for the witnesses below. -/
def mazeOpen2 : Maze := ⟨[[0, 0], [0, 0]], ⟨0, 0⟩, ⟨1, 1⟩⟩

/-- Witness for sim_positions_valid on the open 2×2 maze with the individual
[RIGHT, UP]. -/
theorem sim_positions_valid_witness :
    (∀ p ∈ (simulate mazeOpen2 [Direction.RIGHT, Direction.UP]).visited_positions,
        mazeOpen2.is_valid_position p = true ∧ mazeOpen2.is_wall p = false) ∧
      (simulate mazeOpen2 [Direction.RIGHT, Direction.UP]).position ∈
        (simulate mazeOpen2 [Direction.RIGHT, Direction.UP]).visited_positions ∧
      (∀ (s : SimState) (d : Direction),
        (mazeOpen2.is_wall (mazeOpen2.move s.position d) = true ∨
          mazeOpen2.is_valid_position (mazeOpen2.move s.position d) = false) →
        (simStep mazeOpen2 s d).position = s.position) :=
  sim_positions_valid mazeOpen2 [Direction.RIGHT, Direction.UP] (by decide) (by decide)

/-- State of the path-tracing loop in visualize_path. -/
structure VisState where
  position : Position
  path_positions : List Position

/-- One loop iteration of visualize_path: move only if the new position is
not a wall and is valid, appending it to the traced path. -/
def visStep (m : Maze) (s : VisState) (d : Direction) : VisState :=
  let new_position := m.move s.position d
  if !(m.is_wall new_position) && m.is_valid_position new_position then
    { position := new_position, path_positions := s.path_positions ++ [new_position] }
  else
    s

/-- The tracing loop of visualize_path with its stop-on-goal check. -/
def visAux (m : Maze) : List Direction → VisState → VisState
  | [], s => s
  | d :: rest, s =>
    let s1 := visStep m s d
    if s1.position = m.endPos then s1 else visAux m rest s1

/-- Path trace computed by visualize_path (ga_solver.py, lines 407-421). -/
def visualize_trace (m : Maze) (path : List Direction) : VisState :=
  visAux m path { position := m.start, path_positions := [m.start] }

/-- The two trailer values reported by visualize_path: the path length
len(path_positions) and the reached-goal flag position == end. -/
def visualize_report (m : Maze) (path : List Direction) : Nat × Bool :=
  let s := visualize_trace m path
  (s.path_positions.length, s.position == m.endPos)

theorem visStep_agrees (m : Maze) (s : VisState) (t : SimState) (d : Direction)
    (hpos : s.position = t.position) (hpath : s.path_positions = t.visited_positions) :
    (visStep m s d).position = (simStep m t d).position ∧
      (visStep m s d).path_positions = (simStep m t d).visited_positions := by
  rw [visStep, simStep, hpos]
  cases hw : m.is_wall (m.move t.position d) <;>
    cases hv : m.is_valid_position (m.move t.position d) <;>
      simp [hw, hv, hpos, hpath]

theorem visAux_agrees (m : Maze) (l : List Direction) :
    ∀ (s : VisState) (t : SimState), s.position = t.position →
      s.path_positions = t.visited_positions →
      (visAux m l s).position = (simAux m l t).position ∧
        (visAux m l s).path_positions = (simAux m l t).visited_positions := by
  induction l with
  | nil => intro s t hpos hpath; exact ⟨hpos, hpath⟩
  | cons d rest ih =>
    intro s t hpos hpath
    have hstep := visStep_agrees m s t d hpos hpath
    rw [visAux, simAux]
    rw [hstep.1]
    split
    · exact hstep
    · exact ih (visStep m s d) (simStep m t d) hstep.1 hstep.2

/-- C7: the path-visualization simulation follows exactly the same
trajectory as the fitness evaluator — same wall/out-of-bounds rejection,
same stop-on-goal — so its reported path length and reached-goal flag agree
with the evaluator trace. -/
theorem visualize_matches_evaluator (m : Maze) (path : List Direction) :
    (visualize_trace m path).position = (simulate m path).position ∧
      (visualize_trace m path).path_positions = (simulate m path).visited_positions ∧
      visualize_report m path =
        ((simulate m path).visited_positions.length,
          (simulate m path).position == m.endPos) := by
  have h := visAux_agrees m path
    { position := m.start, path_positions := [m.start] } (simInit m) rfl rfl
  refine ⟨h.1, h.2, ?_⟩
  rw [visualize_report, visualize_trace] at *
  rw [h.1, h.2]
  rfl

theorem rstep_length_le (acc : List Direction) (d : Direction) :
    (rstep acc d).length ≤ acc.length + 1 := by
  rcases acc with _ | ⟨t, rest⟩
  · simp [rstep]
  · rw [rstep]
    split
    · simp
      omega
    · simp

theorem foldl_rstep_length_le (l : List Direction) :
    ∀ acc : List Direction, (l.foldl rstep acc).length ≤ acc.length + l.length := by
  induction l with
  | nil => intro acc; simp
  | cons d tl ih =>
    intro acc
    calc (List.foldl rstep acc (d :: tl)).length
        = (tl.foldl rstep (rstep acc d)).length := by simp
      _ ≤ (rstep acc d).length + tl.length := ih (rstep acc d)
      _ ≤ acc.length + 1 + tl.length := by
          have := rstep_length_le acc d
          omega
      _ = acc.length + (d :: tl).length := by simp; omega

/-- The canonicalizer never lengthens a sequence. -/
theorem simplify_length_le (l : List Direction) :
    (simplify_individual l).length ≤ l.length := by
  rw [simplify_individual, foldl_simplifyStep_eq_rstep]
  simpa using foldl_rstep_length_le l []

/-- Pad an individual to target length (ga_solver.py, _pad_individual):
append directions drawn from the stream rand while the length is below
target_length; never truncate. -/
def pad_individual (individual : List Direction) (target_length : Nat)
    (rand : Nat → Direction) : List Direction :=
  individual ++ (List.range (target_length - individual.length)).map rand

theorem pad_length (individual : List Direction) (target_length : Nat)
    (rand : Nat → Direction) (h : individual.length ≤ target_length) :
    (pad_individual individual target_length rand).length = target_length := by
  rw [pad_individual]
  simp
  omega

/-- Two-point crossover (deap.tools.cxTwoPoint, the operator invoked by
_crossover_individuals).  The two randint draws are modelled by the seeds r1
and r2, with randint(1, n) rendered as 1 + seed % n; randint raises on an
empty range, so the call fails — none — unless min(len1, len2) ≥ 2.  The
slice exchange ind1[c1:c2], ind2[c1:c2] = ind2[c1:c2], ind1[c1:c2] is spelt
out with take and drop. -/
def cxTwoPoint (ind1 ind2 : List Direction) (r1 r2 : Nat) :
    Option (List Direction × List Direction) :=
  let size := min ind1.length ind2.length
  if 2 ≤ size then
    let c1 := 1 + r1 % size
    let c2 := 1 + r2 % (size - 1)
    let cxpoint1 := if c1 ≤ c2 then c1 else c2
    let cxpoint2 := if c1 ≤ c2 then c2 + 1 else c1
    some
      (ind1.take cxpoint1 ++ (ind2.drop cxpoint1).take (cxpoint2 - cxpoint1) ++
          ind1.drop cxpoint2,
        ind2.take cxpoint1 ++ (ind1.drop cxpoint1).take (cxpoint2 - cxpoint1) ++
          ind2.drop cxpoint2)
  else none

theorem slice_exchange_length (a b : List Direction) (i j : Nat) (hij : i ≤ j)
    (hj : j ≤ a.length) (hba : b.length = a.length) :
    (a.take i ++ (b.drop i).take (j - i) ++ a.drop j).length = a.length := by
  simp [List.length_take, List.length_drop, hba]
  omega

theorem cxTwoPoint_lengths (ind1 ind2 : List Direction) (r1 r2 : Nat) (L : Nat)
    (h1 : ind1.length = L) (h2 : ind2.length = L) (hL : 2 ≤ L) :
    ∃ o1 o2, cxTwoPoint ind1 ind2 r1 r2 = some (o1, o2) ∧
      o1.length = L ∧ o2.length = L := by
  have hsize : min ind1.length ind2.length = L := by rw [h1, h2, min_self]
  have hc1 : r1 % L < L := Nat.mod_lt _ (by omega)
  have hc2 : r2 % (L - 1) < L - 1 := Nat.mod_lt _ (by omega)
  rw [cxTwoPoint]
  simp only [hsize, if_pos hL]
  set c1 := 1 + r1 % L with hc1def
  set c2 := 1 + r2 % (L - 1) with hc2def
  by_cases hord : c1 ≤ c2
  · simp only [if_pos hord]
    refine ⟨_, _, rfl, ?_, ?_⟩
    · rw [slice_exchange_length ind1 ind2 c1 (c2 + 1) (by omega) (by omega) (by omega), h1]
    · rw [slice_exchange_length ind2 ind1 c1 (c2 + 1) (by omega) (by omega) (by omega), h2]
  · simp only [if_neg hord]
    refine ⟨_, _, rfl, ?_, ?_⟩
    · rw [slice_exchange_length ind1 ind2 c2 c1 (by omega) (by omega) (by omega), h1]
    · rw [slice_exchange_length ind2 ind1 c2 c1 (by omega) (by omega) (by omega), h2]

/-- Crossover of two individuals (ga_solver.py, _crossover_individuals):
two-point crossover, then simplify each offspring, then pad each back to
max_path_length.  The streams p1 and p2 supply the random padding tails;
the result is none exactly when cxTwoPoint's randint fails. -/
def crossover_individuals (max_path_length : Nat) (ind1 ind2 : List Direction)
    (r1 r2 : Nat) (p1 p2 : Nat → Direction) :
    Option (List Direction × List Direction) :=
  (cxTwoPoint ind1 ind2 r1 r2).map fun o =>
    (pad_individual (simplify_individual o.1) max_path_length p1,
      pad_individual (simplify_individual o.2) max_path_length p2)

/-- Mutation (ga_solver.py, _mutate_individual): each gene whose coin flip
fires is replaced by a resampled direction, then the result is simplified
and padded back to max_path_length. -/
def mutate_individual (max_path_length : Nat) (individual : List Direction)
    (coins : Nat → Bool) (resample : Nat → Direction) (padRand : Nat → Direction) :
    List Direction :=
  let mutated := individual.mapIdx fun i d => if coins i then resample i else d
  pad_individual (simplify_individual mutated) max_path_length padRand

/-- C5 counterexample: with max_path_length = 1 — a valid configuration, the
claim requires only max_path_length ≥ 1 — crossover produces no offspring at
all: cxTwoPoint evaluates randint(1, size - 1) on the empty range 1..0,
which raises, so no individuals of length 1 come out. -/
theorem crossover_length_one_counterexample :
    ¬ ∃ o1 o2,
        crossover_individuals 1 [Direction.UP] [Direction.UP] 0 0
            (fun _ => Direction.UP) (fun _ => Direction.UP) = some (o1, o2) ∧
          o1.length = 1 ∧ o2.length = 1 := by
  rintro ⟨o1, o2, h, -, -⟩
  simp [crossover_individuals, cxTwoPoint] at h

/-- C5 amended: for inputs of length exactly max_path_length, crossover
succeeds and both offspring have length exactly max_path_length whenever
max_path_length ≥ 2 (at max_path_length = 1 two-point crossover fails on an
empty randint range), and the mutation output has length exactly
max_path_length whenever max_path_length ≥ 1. -/
theorem operator_length_invariant :
    (∀ (L : Nat) (ind1 ind2 : List Direction) (r1 r2 : Nat) (p1 p2 : Nat → Direction),
        2 ≤ L → ind1.length = L → ind2.length = L →
        ∃ o1 o2, crossover_individuals L ind1 ind2 r1 r2 p1 p2 = some (o1, o2) ∧
          o1.length = L ∧ o2.length = L) ∧
      (∀ (L : Nat) (ind : List Direction) (coins : Nat → Bool)
          (resample padRand : Nat → Direction), 1 ≤ L → ind.length = L →
        (mutate_individual L ind coins resample padRand).length = L) := by
  constructor
  · intro L ind1 ind2 r1 r2 p1 p2 hL h1 h2
    obtain ⟨o1, o2, hcx, ho1, ho2⟩ := cxTwoPoint_lengths ind1 ind2 r1 r2 L h1 h2 hL
    refine ⟨pad_individual (simplify_individual o1) L p1,
      pad_individual (simplify_individual o2) L p2, ?_, ?_, ?_⟩
    · rw [crossover_individuals, hcx]
      rfl
    · exact pad_length _ _ _ (by rw [← ho1]; exact simplify_length_le o1)
    · exact pad_length _ _ _ (by rw [← ho2]; exact simplify_length_le o2)
  · intro L ind coins resample padRand _ hlen
    rw [mutate_individual]
    have hm : (ind.mapIdx fun i d => if coins i then resample i else d).length = L := by
      rw [List.length_mapIdx, hlen]
    exact pad_length _ _ _
      (by have := simplify_length_le (ind.mapIdx fun i d => if coins i then resample i else d); omega)

/-- Witness for operator_length_invariant at max_path_length 2 (crossover)
and 1 (mutation). -/
theorem operator_length_invariant_witness :
    (∃ o1 o2,
        crossover_individuals 2 [Direction.UP, Direction.UP]
            [Direction.DOWN, Direction.DOWN] 0 0 (fun _ => Direction.UP)
            (fun _ => Direction.UP) = some (o1, o2) ∧
          o1.length = 2 ∧ o2.length = 2) ∧
      (mutate_individual 1 [Direction.UP] (fun _ => false) (fun _ => Direction.UP)
          (fun _ => Direction.UP)).length = 1 :=
  ⟨operator_length_invariant.1 2 [Direction.UP, Direction.UP]
      [Direction.DOWN, Direction.DOWN] 0 0 (fun _ => Direction.UP) (fun _ => Direction.UP)
      (by decide) (by decide) (by decide),
    operator_length_invariant.2 1 [Direction.UP] (fun _ => false) (fun _ => Direction.UP)
      (fun _ => Direction.UP) (by decide) (by decide)⟩

/-- Strictly-better comparison between two minimized fitness pairs.
deap.base.Fitness with weights (-1.0, -1.0) compares wvalues — the values
scaled by the weights — as Python tuples, i.e. lexicographically, so fitness
a beats fitness b exactly when the value pair a is lexicographically smaller
than the value pair b. -/
def fitLt (a b : Int × Int) : Prop :=
  a.1 < b.1 ∨ (a.1 = b.1 ∧ a.2 < b.2)

instance (a b : Int × Int) : Decidable (fitLt a b) :=
  inferInstanceAs (Decidable (a.1 < b.1 ∨ (a.1 = b.1 ∧ a.2 < b.2)))

/-- Lexicographic order on fitness pairs, the reflexive closure of fitLt. -/
def fitLe (a b : Int × Int) : Prop :=
  a.1 < b.1 ∨ (a.1 = b.1 ∧ a.2 ≤ b.2)

instance (a b : Int × Int) : Decidable (fitLe a b) :=
  inferInstanceAs (Decidable (a.1 < b.1 ∨ (a.1 = b.1 ∧ a.2 ≤ b.2)))

theorem fitLe_refl (a : Int × Int) : fitLe a a := by
  unfold fitLe
  omega

theorem fitLe_trans (a b c : Int × Int) (h1 : fitLe a b) (h2 : fitLe b c) : fitLe a c := by
  unfold fitLe at *
  omega

theorem fitLt_le (a b : Int × Int) (h : fitLt a b) : fitLe a b := by
  unfold fitLt at h
  unfold fitLe
  omega

theorem not_fitLt_le (a b : Int × Int) (h : ¬ fitLt a b) : fitLe b a := by
  unfold fitLt at h
  unfold fitLe
  omega

/-- Python max over the aspirants keyed by fitness (deap.tools.selTournament):
scan left to right, replacing the current best only on a strictly better
fitness, so the first of equal maxima wins. -/
def tournamentBest (a : Int × Int) (rest : List (Int × Int)) : Int × Int :=
  rest.foldl (fun best x => if fitLt x best then x else best) a

/-- One tournament of deap.tools.selTournament: the aspirants are
selRandom(individuals, tournsize) — tournsize draws with replacement,
modelled by the drawn indices — and the winner is the Python max by fitness.
none models max() raising on an empty aspirant list. -/
def selTournamentOne (pop : List (Int × Int)) (draw : List Nat) : Option (Int × Int) :=
  match draw.map (fun i => pop.getD i (0, 0)) with
  | [] => none
  | a :: rest => some (tournamentBest a rest)

/-- The composite scalar used by the per-generation statistics in solve():
the simple sum of the two fitness components. -/
def composite (f : Int × Int) : Int := f.1 + f.2

theorem tournamentBest_mem_le (rest : List (Int × Int)) :
    ∀ a : Int × Int, tournamentBest a rest ∈ a :: rest ∧
      ∀ x ∈ a :: rest, fitLe (tournamentBest a rest) x := by
  induction rest with
  | nil =>
    intro a
    constructor
    · simp [tournamentBest]
    · intro x hx
      have hxa : x = a := by simpa using hx
      rw [hxa]
      simpa [tournamentBest] using fitLe_refl a
  | cons x xs ih =>
    intro a
    have hfold : tournamentBest a (x :: xs) = tournamentBest (if fitLt x a then x else a) xs := by
      rw [tournamentBest, tournamentBest, List.foldl_cons]
    obtain ⟨hmem, hle⟩ := ih (if fitLt x a then x else a)
    have hbmem : (if fitLt x a then x else a) ∈ a :: x :: xs := by
      split <;> simp
    have hble : fitLe (if fitLt x a then x else a) a ∧
        fitLe (if fitLt x a then x else a) x := by
      by_cases hcase : fitLt x a
      · simp only [if_pos hcase]
        exact ⟨fitLt_le x a hcase, fitLe_refl x⟩
      · simp only [if_neg hcase]
        exact ⟨fitLe_refl a, not_fitLt_le x a hcase⟩
    have hwb : fitLe (tournamentBest (if fitLt x a then x else a) xs)
        (if fitLt x a then x else a) := hle _ (by simp)
    constructor
    · rw [hfold]
      rcases List.mem_cons.mp hmem with h | h
      · rw [h]
        exact hbmem
      · simp [h]
    · intro y hy
      rw [hfold]
      rcases List.mem_cons.mp hy with h | h
      · rw [h]
        exact fitLe_trans _ _ _ hwb hble.1
      · rcases List.mem_cons.mp h with h2 | h2
        · rw [h2]
          exact fitLe_trans _ _ _ hwb hble.2
        · exact hle y (List.mem_cons_of_mem _ h2)

/-- C2 counterexample, two concrete instances of tournaments with
tournament_size = population_size = 2.  First: the draw covers the whole
population [(0,10), (1,2)] yet the winner is (0,10) — the lexicographically
best pair — whose composite 10 differs from the population composite minimum
3: the metric the tournament minimizes is not the composite sum.  Second: on
population [(5,5), (0,0)] the with-replacement draw [0,0] never samples the
best individual, and the winner's composite 10 differs from the population
minimum 0: no draw-independent guarantee is possible. -/
theorem tournament_composite_counterexample :
    (selTournamentOne [((0 : Int), (10 : Int)), ((1 : Int), (2 : Int))] [0, 1] =
          some (0, 10) ∧
        composite (0, 10) = 10 ∧
        ([((0 : Int), (10 : Int)), ((1 : Int), (2 : Int))].map composite).min? = some 3) ∧
      (selTournamentOne [((5 : Int), (5 : Int)), ((0 : Int), (0 : Int))] [0, 0] =
          some (5, 5) ∧
        composite (5, 5) = 10 ∧
        ([((5 : Int), (5 : Int)), ((0 : Int), (0 : Int))].map composite).min? = some 0) := by
  constructor
  · refine ⟨rfl, rfl, ?_⟩
    decide
  · refine ⟨rfl, rfl, ?_⟩
    decide

/-- C2 amended: for every population and every nonempty aspirant draw
(tournament_size = population_size draws are made with replacement), the
tournament returns a drawn individual whose fitness pair is lexicographically
minimal among the aspirants — the lexicographic order on the pair, not the
composite sum, is the metric DEAP minimizes — and whenever some drawn index
hits a population-wide lexicographic minimum, the winner is a population-wide
lexicographic minimum. -/
theorem tournament_winner_lex_min (pop : List (Int × Int)) (draw : List Nat)
    (hne : draw ≠ []) :
    ∃ w, selTournamentOne pop draw = some w ∧
      w ∈ draw.map (fun i => pop.getD i (0, 0)) ∧
      (∀ x ∈ draw.map (fun i => pop.getD i (0, 0)), fitLe w x) ∧
      ((∀ i ∈ draw, i < pop.length) →
        (∃ i ∈ draw, ∀ y ∈ pop, fitLe (pop.getD i (0, 0)) y) →
        w ∈ pop ∧ ∀ y ∈ pop, fitLe w y) := by
  rcases hmap : draw.map (fun i => pop.getD i (0, 0)) with _ | ⟨a, rest⟩
  · exact absurd (List.map_eq_nil_iff.mp hmap) hne
  · obtain ⟨hmem, hle⟩ := tournamentBest_mem_le rest a
    refine ⟨tournamentBest a rest, ?_, ?_, ?_, ?_⟩
    · rw [selTournamentOne, hmap]
    · exact hmem
    · exact hle
    · intro hidx hmin
      obtain ⟨i, hi, hiy⟩ := hmin
      have hvasp : pop.getD i (0, 0) ∈ draw.map (fun j => pop.getD j (0, 0)) :=
        List.mem_map.mpr ⟨i, hi, rfl⟩
      have hwv : fitLe (tournamentBest a rest) (pop.getD i (0, 0)) := by
        rw [hmap] at hvasp
        exact hle _ hvasp
      constructor
      · have hw : tournamentBest a rest ∈ draw.map (fun j => pop.getD j (0, 0)) := by
          rw [hmap]
          exact hmem
        obtain ⟨j, hj, hjw⟩ := List.mem_map.mp hw
        have hjlt : j < pop.length := hidx j hj
        rw [← hjw]
        have : pop.getD j (0, 0) = pop.get ⟨j, hjlt⟩ := by
          simp [List.getD_eq_getElem?_getD, List.getElem?_eq_getElem hjlt]
        rw [this]
        exact List.get_mem pop j hjlt
      · intro y hy
        exact fitLe_trans _ _ _ hwv (hiy y hy)

/-- Witness for tournament_winner_lex_min on the population [(0,10), (1,2)]
with the full-coverage draw [0, 1]. -/
theorem tournament_winner_lex_min_witness :
    ∃ w, selTournamentOne [((0 : Int), (10 : Int)), ((1 : Int), (2 : Int))] [0, 1] =
        some w ∧
      w ∈ [0, 1].map (fun i => [((0 : Int), (10 : Int)), ((1 : Int), (2 : Int))].getD i (0, 0)) ∧
      (∀ x ∈ [0, 1].map
          (fun i => [((0 : Int), (10 : Int)), ((1 : Int), (2 : Int))].getD i (0, 0)),
        fitLe w x) ∧
      ((∀ i ∈ [0, 1], i < [((0 : Int), (10 : Int)), ((1 : Int), (2 : Int))].length) →
        (∃ i ∈ [0, 1], ∀ y ∈ [((0 : Int), (10 : Int)), ((1 : Int), (2 : Int))],
          fitLe ([((0 : Int), (10 : Int)), ((1 : Int), (2 : Int))].getD i (0, 0)) y) →
        w ∈ [((0 : Int), (10 : Int)), ((1 : Int), (2 : Int))] ∧
          ∀ y ∈ [((0 : Int), (10 : Int)), ((1 : Int), (2 : Int))], fitLe w y) :=
  tournament_winner_lex_min [((0 : Int), (10 : Int)), ((1 : Int), (2 : Int))] [0, 1]
    (by decide)

/-- Length of the maximal run of consecutive stagnant generations ending at
gen, counting only generations from 2 on — this is the value of the
stagnation counter of _ea_simple_with_early_stopping after generation gen
when no break has occurred.  A generation gen is stagnant when the
improvement mins (gen-1) - mins gen of the per-generation composite minimum
is below minChange. -/
def runLen (minChange : ℚ) (mins : Nat → ℚ) : Nat → Nat
  | 0 => 0
  | 1 => 0
  | gen + 2 =>
    if mins (gen + 1) - mins (gen + 2) < minChange then
      runLen minChange mins (gen + 1) + 1
    else 0

theorem runLen_eq (minChange : ℚ) (mins : Nat → ℚ) (gen : Nat) (h : 2 ≤ gen) :
    runLen minChange mins gen =
      if mins (gen - 1) - mins gen < minChange then
        runLen minChange mins (gen - 1) + 1
      else 0 := by
  obtain ⟨g2, rfl⟩ : ∃ g2, gen = g2 + 2 := ⟨gen - 2, by omega⟩
  have h1 : g2 + 2 - 1 = g2 + 1 := by omega
  rw [runLen, h1]

theorem runLen_le (minChange : ℚ) (mins : Nat → ℚ) :
    ∀ gen : Nat, runLen minChange mins gen ≤ gen - 1
  | 0 => by rw [runLen]
  | 1 => by rw [runLen]
  | gen + 2 => by
    rw [runLen]
    split
    · have := runLen_le minChange mins (gen + 1)
      omega
    · omega

theorem runLen_window (minChange : ℚ) (mins : Nat → ℚ) :
    ∀ (gen k : Nat), k ≤ runLen minChange mins gen →
      ∀ i, gen + 1 - k ≤ i → i ≤ gen → mins (i - 1) - mins i < minChange
  | 0, k => by
    intro hk i hi1 hi2
    rw [runLen] at hk
    omega
  | 1, k => by
    intro hk i hi1 hi2
    rw [runLen] at hk
    omega
  | gen + 2, k => by
    intro hk i hi1 hi2
    rw [runLen] at hk
    split at hk
    · rename_i hs
      by_cases hie : i = gen + 2
      · subst hie
        have h1 : gen + 2 - 1 = gen + 1 := by omega
        rw [h1]
        exact hs
      · rcases Nat.eq_zero_or_pos k with hk0 | hkpos
        · omega
        · exact runLen_window minChange mins (gen + 1) (k - 1)
            (by omega) i (by omega) (by omega)
    · omega

theorem runLen_of_window (minChange : ℚ) (mins : Nat → ℚ) :
    ∀ (k gen : Nat), k + 1 ≤ gen →
      (∀ i, gen + 1 - k ≤ i → i ≤ gen → mins (i - 1) - mins i < minChange) →
      k ≤ runLen minChange mins gen := by
  intro k
  induction k with
  | zero => intro gen _ _; omega
  | succ k ih =>
    intro gen hg hw
    have h2 : 2 ≤ gen := by omega
    have hs : mins (gen - 1) - mins gen < minChange := hw gen (by omega) (le_refl gen)
    rw [runLen_eq minChange mins gen h2, if_pos hs]
    have hk : k ≤ runLen minChange mins (gen - 1) := by
      apply ih (gen - 1) (by omega)
      intro i hi1 hi2
      exact hw i (by omega) (by omega)
    omega

/-- The evolution loop of _ea_simple_with_early_stopping reduced to its
early-stopping skeleton.  gen is the generation about to execute, fuel the
number of generations left before the ngen cap, counter the stagnation
counter; the result is the number of generations executed.  From generation
2 on — the point where best_fitness_history holds more than one entry — the
counter is incremented when the improvement over the previous generation's
minimum is below minChange and reset to zero otherwise, and the loop breaks
once the counter reaches esGens.  The per-generation minima of the composite
statistic are abstracted as the sequence mins. -/
def esLoop (minChange : ℚ) (esGens : Nat) (mins : Nat → ℚ) :
    Nat → Nat → Nat → Nat
  | 0, gen, _ => gen - 1
  | fuel + 1, gen, counter =>
    if 2 ≤ gen then
      if esGens ≤ (if mins (gen - 1) - mins gen < minChange then counter + 1 else 0) then
        gen
      else
        esLoop minChange esGens mins fuel (gen + 1)
          (if mins (gen - 1) - mins gen < minChange then counter + 1 else 0)
    else esLoop minChange esGens mins fuel (gen + 1) counter

/-- Number of generations the evolution loop executes when capped at ngen
generations: the loop starts at generation 1 with a zero counter. -/
def esStop (minChange : ℚ) (esGens : Nat) (mins : Nat → ℚ) (ngen : Nat) : Nat :=
  esLoop minChange esGens mins ngen 1 0

theorem esLoop_break (minChange : ℚ) (esGens : Nat) (mins : Nat → ℚ) :
    ∀ (fuel gen counter : Nat), 1 ≤ gen →
      counter = runLen minChange mins (gen - 1) →
      esLoop minChange esGens mins fuel gen counter < gen - 1 + fuel →
      ∃ g, esLoop minChange esGens mins fuel gen counter = g ∧ gen ≤ g ∧ 2 ≤ g ∧
        esGens ≤ runLen minChange mins g := by
  intro fuel
  induction fuel with
  | zero =>
    intro gen counter h1 hc hlt
    rw [esLoop] at hlt
    omega
  | succ fuel ih =>
    intro gen counter h1 hc hlt
    rw [esLoop] at hlt ⊢
    by_cases h2 : 2 ≤ gen
    · rw [if_pos h2] at hlt ⊢
      have hc1 : (if mins (gen - 1) - mins gen < minChange then counter + 1 else 0) =
          runLen minChange mins gen := by
        rw [runLen_eq minChange mins gen h2, hc]
      by_cases hbr : esGens ≤ (if mins (gen - 1) - mins gen < minChange then counter + 1 else 0)
      · rw [if_pos hbr]
        exact ⟨gen, rfl, le_refl gen, h2, by rw [← hc1]; exact hbr⟩
      · rw [if_neg hbr] at hlt ⊢
        have hinv : (if mins (gen - 1) - mins gen < minChange then counter + 1 else 0) =
            runLen minChange mins (gen + 1 - 1) := by
          have h3 : gen + 1 - 1 = gen := by omega
          rw [h3]
          exact hc1
        obtain ⟨g, heq, hge, h2g, hrun⟩ :=
          ih (gen + 1) (if mins (gen - 1) - mins gen < minChange then counter + 1 else 0)
            (by omega) hinv (by omega)
        exact ⟨g, heq, by omega, h2g, hrun⟩
    · rw [if_neg h2] at hlt ⊢
      have hg1 : gen = 1 := by omega
      subst hg1
      have hinv : counter = runLen minChange mins (1 + 1 - 1) := by
        have h0 : runLen minChange mins 0 = 0 := by rw [runLen]
        have h1 : runLen minChange mins 1 = 0 := by rw [runLen]
        have e1 : (1 : Nat) - 1 = 0 := by omega
        have e2 : (1 : Nat) + 1 - 1 = 1 := by omega
        rw [hc, e1, e2, h0, h1]
      obtain ⟨g, heq, hge, h2g, hrun⟩ := ih (1 + 1) counter (by omega) hinv (by omega)
      exact ⟨g, heq, by omega, h2g, hrun⟩

theorem esLoop_le_break (minChange : ℚ) (esGens : Nat) (mins : Nat → ℚ) :
    ∀ (fuel gen counter : Nat), 1 ≤ gen →
      counter = runLen minChange mins (gen - 1) →
      ∀ g, gen ≤ g → g ≤ gen - 1 + fuel → 2 ≤ g → esGens ≤ runLen minChange mins g →
      esLoop minChange esGens mins fuel gen counter ≤ g := by
  intro fuel
  induction fuel with
  | zero =>
    intro gen counter h1 hc g hg1 hg2 hg3 hg4
    omega
  | succ fuel ih =>
    intro gen counter h1 hc g hg1 hg2 hg3 hg4
    rw [esLoop]
    by_cases h2 : 2 ≤ gen
    · rw [if_pos h2]
      have hc1 : (if mins (gen - 1) - mins gen < minChange then counter + 1 else 0) =
          runLen minChange mins gen := by
        rw [runLen_eq minChange mins gen h2, hc]
      by_cases hbr : esGens ≤ (if mins (gen - 1) - mins gen < minChange then counter + 1 else 0)
      · rw [if_pos hbr]
        exact hg1
      · rw [if_neg hbr]
        have hgne : gen ≠ g := by
          intro he
          rw [hc1, he] at hbr
          exact hbr hg4
        have hinv2 : (if mins (gen - 1) - mins gen < minChange then counter + 1 else 0) =
            runLen minChange mins (gen + 1 - 1) := by
          have h3 : gen + 1 - 1 = gen := by omega
          rw [h3]
          exact hc1
        exact ih (gen + 1) _ (by omega) hinv2 g (by omega) (by omega) hg3 hg4
    · rw [if_neg h2]
      have hg1e : gen = 1 := by omega
      subst hg1e
      have hinv : counter = runLen minChange mins (1 + 1 - 1) := by
        have h0 : runLen minChange mins 0 = 0 := by rw [runLen]
        have h1 : runLen minChange mins 1 = 0 := by rw [runLen]
        have e1 : (1 : Nat) - 1 = 0 := by omega
        have e2 : (1 : Nat) + 1 - 1 = 1 := by omega
        rw [hc, e1, e2, h0, h1]
      apply ih (1 + 1) counter (by omega) hinv g (by omega) (by omega) hg3 hg4

/-- C3: with esGens = early_stopping_generations ≥ 1, the evolution loop
terminates before the max_generations cap exactly when some generation
g < ngen ends a run of esGens consecutive generations — necessarily all of
them ≥ 2, so the counter never accumulates before generation 2 — whose
improvement over the previous generation's minimum composite fitness is
below minChange; moreover an early stop can happen only at generation
esGens + 1 or later, so never before one improvement comparison was
possible. -/
theorem early_stopping_iff_stagnation_window (minChange : ℚ) (esGens : Nat)
    (mins : Nat → ℚ) (ngen : Nat) (heg : 1 ≤ esGens) :
    (esStop minChange esGens mins ngen < ngen ↔
        ∃ g, esGens + 1 ≤ g ∧ g < ngen ∧
          ∀ i, g + 1 - esGens ≤ i → i ≤ g → mins (i - 1) - mins i < minChange) ∧
      (esStop minChange esGens mins ngen < ngen →
        esGens + 1 ≤ esStop minChange esGens mins ngen) := by
  have hc0 : (0 : Nat) = runLen minChange mins (1 - 1) := by rw [runLen]
  constructor
  · constructor
    · intro h
      obtain ⟨g, heq, hge, h2g, hrun⟩ :=
        esLoop_break minChange esGens mins ngen 1 0 (le_refl 1) hc0 (by rw [esStop] at h; omega)
      rw [esStop] at h
      rw [heq] at h
      have hle := runLen_le minChange mins g
      exact ⟨g, by omega, h, runLen_window minChange mins g esGens hrun⟩
    · rintro ⟨g, hg1, hg2, hw⟩
      have hrun : esGens ≤ runLen minChange mins g :=
        runLen_of_window minChange mins esGens g hg1 hw
      have := esLoop_le_break minChange esGens mins ngen 1 0 (le_refl 1) hc0 g (by omega)
        (by omega) (by omega) hrun
      rw [esStop]
      omega
  · intro h
    obtain ⟨g, heq, hge, h2g, hrun⟩ :=
      esLoop_break minChange esGens mins ngen 1 0 (le_refl 1) hc0 (by rw [esStop] at h; omega)
    have hle := runLen_le minChange mins g
    rw [esStop, heq]
    omega

/-- Witness for early_stopping_iff_stagnation_window with minChange 1,
esGens 1, ngen 3 and a constant minimum sequence (improvement 0 every
generation, so the loop stops at generation 2). -/
theorem early_stopping_witness :
    (esStop 1 1 (fun _ => (10 : ℚ)) 3 < 3 ↔
        ∃ g, 1 + 1 ≤ g ∧ g < 3 ∧
          ∀ i, g + 1 - 1 ≤ i → i ≤ g →
            (fun _ => (10 : ℚ)) (i - 1) - (fun _ => (10 : ℚ)) i < 1) ∧
      (esStop 1 1 (fun _ => (10 : ℚ)) 3 < 3 →
        1 + 1 ≤ esStop 1 1 (fun _ => (10 : ℚ)) 3) :=
  early_stopping_iff_stagnation_window 1 1 (fun _ => (10 : ℚ)) 3 (le_refl 1)
